import Mathlib

/-!
Shallow embedding of `cannellonipy.py`: the CAN-frame data model, the
ring queue `FramesQueue`, the UDP datagram decoder
`CannelloniHandle.handle_cannelloni_frame`, the drain helper
`get_received_can_frames`, and the encoder inside `transmit_udp_packets`.
Bytes are modelled as natural numbers (a real datagram has every byte
below 256); byte strings are lists of naturals.
-/

namespace Cannellonipy

/-- Constants from the top of `cannellonipy.py`. -/
def CANNELLONI_FRAME_VERSION : Nat := 2

def OPCODE : Nat := 1

def CANFD_FRAME : Nat := 0x80

def CANNELLONI_DATA_PACKET_BASE_SIZE : Nat := 4

def CANNELLONI_FRAME_BASE_SIZE : Nat := 5

def CAN_RTR_FLAG : Nat := 0x40000000

/-- `CanfdFrame.__init__`: `can_id = 0`, `len = 0`, `flags = 0`,
`data = bytearray(8)` (eight zero bytes), modelled as a list of bytes. -/
structure CanfdFrame where
  can_id : Nat
  len : Nat
  flags : Nat
  data : List Nat
  deriving Repr, DecidableEq

/-- A freshly constructed `CanfdFrame()`. -/
def CanfdFrame.init : CanfdFrame :=
  { can_id := 0, len := 0, flags := 0, data := List.replicate 8 0 }

instance : Inhabited CanfdFrame := ⟨CanfdFrame.init⟩

/-- `FramesQueue.__init__(count)` state: `head`, `tail`, `count` and the
backing list `frames` (initially `count` fresh frames). -/
structure FramesQueue where
  head : Nat
  tail : Nat
  count : Nat
  frames : List CanfdFrame
  deriving Repr, DecidableEq

/-- `FramesQueue(count)` as built by the constructor. -/
def FramesQueue.mk0 (count : Nat) : FramesQueue :=
  { head := 0, tail := 0, count := count, frames := List.replicate count CanfdFrame.init }

/-- `FramesQueue.put`: returns `None` without touching the state when
`(tail + 1) % count == head`, otherwise stores at `tail`, advances `tail`
and returns the frame.  The Python method mutates `self`; here the new
state is the second component. -/
def FramesQueue.put (q : FramesQueue) (frame : CanfdFrame) :
    Option CanfdFrame × FramesQueue :=
  if (q.tail + 1) % q.count = q.head then (none, q)
  else (some frame,
    { q with frames := q.frames.set q.tail frame, tail := (q.tail + 1) % q.count })

/-- `FramesQueue.take`: returns `None` when `head == tail`, otherwise
returns the frame at `head` and advances `head`. -/
def FramesQueue.take (q : FramesQueue) : Option CanfdFrame × FramesQueue :=
  if q.head = q.tail then (none, q)
  else (some (q.frames.getD q.head default), { q with head := (q.head + 1) % q.count })

/-- `FramesQueue.peek`: non-destructive read of the head frame. -/
def FramesQueue.peek (q : FramesQueue) : Option CanfdFrame :=
  if q.head = q.tail then none else some (q.frames.getD q.head default)

/-- Well-formedness of a queue state: every state ever produced by the
constructor and by `put`/`take` satisfies it. -/
def FramesQueue.wf (q : FramesQueue) : Prop :=
  q.head < q.count ∧ q.tail < q.count ∧ q.frames.length = q.count

instance (q : FramesQueue) : Decidable q.wf := by
  unfold FramesQueue.wf; infer_instance

/-- Number of stored (put but not yet taken) frames, written without `%`
on the variable modulus: `(tail + count - head) % count` for a
well-formed state. -/
def FramesQueue.numElems (q : FramesQueue) : Nat :=
  if q.head ≤ q.tail then q.tail - q.head else q.count + q.tail - q.head

/-- The stored frames in FIFO order: the frame at `head` first. -/
def FramesQueue.toList (q : FramesQueue) : List CanfdFrame :=
  (List.range q.numElems).map (fun i => q.frames.getD ((q.head + i) % q.count) default)

/-- Big-endian 32-bit value from four bytes (`struct.unpack('!I', …)`). -/
def beU32 (b0 b1 b2 b3 : Nat) : Nat :=
  ((b0 * 256 + b1) * 256 + b2) * 256 + b3

/-- Big-endian 4-byte encoding of a value below `2^32`
(`struct.pack('!I', …)`). -/
def u32be (n : Nat) : List Nat :=
  [n / 16777216 % 256, n / 65536 % 256, n / 256 % 256, n % 256]

/-- The per-frame loop body of `handle_cannelloni_frame` (lines 88-103),
iterated `count` times starting at `pos`: stop as soon as the 5-byte
sub-header does not fit (`pos + 5 > len(data)`); otherwise read the
big-endian identifier and the length byte, clear the FD bit to get the
length, keep the FD bit as `flags`, and, unless the RTR bit is set in the
identifier, overwrite the first `length` bytes of the fresh frame's
zero-filled 8-byte buffer with `data[pos + 5 : pos + 5 + length]` — the
source advances `pos` by 5 *before* this slice and never advances it past
a payload, so the slice starts 5 bytes past the sub-header it belongs to
and is silently truncated at the end of the datagram, exactly as Python
slicing behaves. -/
def parseFrames (data : List Nat) : Nat → Nat → List CanfdFrame
  | _, 0 => []
  | pos, count + 1 =>
    if pos + CANNELLONI_FRAME_BASE_SIZE > data.length then []
    else
      let can_id := beU32 (data.getD pos 0) (data.getD (pos + 1) 0)
        (data.getD (pos + 2) 0) (data.getD (pos + 3) 0)
      let lenByte := data.getD (pos + 4) 0
      let pos' := pos + 5
      let length := lenByte - (lenByte &&& CANFD_FRAME)
      let flags := lenByte &&& CANFD_FRAME
      let payload :=
        if can_id &&& CAN_RTR_FLAG = 0 then
          ((data.drop (pos' + 5)).take length) ++ (List.replicate 8 0).drop length
        else List.replicate 8 0
      { can_id := can_id, len := length, flags := flags, data := payload } ::
        parseFrames data pos' count

/-- The state of a `CannelloniHandle` that `handle_cannelloni_frame`
can touch: the receive queue and the datagram counter. -/
structure Handle where
  rx_queue : FramesQueue
  udp_rx_count : Nat
  deriving Repr, DecidableEq

/-- `handle_cannelloni_frame(handle, data, addr)`: return unchanged when
fewer than 4 bytes are present or the version/opcode bytes mismatch;
otherwise bump `udp_rx_count` and `put` every parsed frame into
`rx_queue` (a failed `put` drops the frame silently). -/
def handle_cannelloni_frame (h : Handle) (data : List Nat) : Handle :=
  if data.length < CANNELLONI_DATA_PACKET_BASE_SIZE then h
  else if data.getD 0 0 ≠ CANNELLONI_FRAME_VERSION ∨ data.getD 1 0 ≠ OPCODE then h
  else
    { rx_queue :=
        (parseFrames data CANNELLONI_DATA_PACKET_BASE_SIZE (data.getD 3 0)).foldl
          (fun q f => (q.put f).2) h.rx_queue,
      udp_rx_count := h.udp_rx_count + 1 }

/-- The pure content of decoding: the sequence-number byte the header
unpack reads (line 76) together with the frames the loop parses.
`none` exactly when `handle_cannelloni_frame` returns early. -/
def decodeDatagram (data : List Nat) : Option (Nat × List CanfdFrame) :=
  if data.length < CANNELLONI_DATA_PACKET_BASE_SIZE then none
  else if data.getD 0 0 ≠ CANNELLONI_FRAME_VERSION ∨ data.getD 1 0 ≠ OPCODE then none
  else some (data.getD 2 0, parseFrames data CANNELLONI_DATA_PACKET_BASE_SIZE (data.getD 3 0))

/-- The datagram built by one iteration of `transmit_udp_packets`
(lines 179-182): 4-byte header with the current sequence number and a
frame count of 1, the big-endian identifier, the length byte
`len | flags`, then `frame.data[:frame.len]` — appended unconditionally,
with no RTR test. -/
def encodeFrame (seq : Nat) (f : CanfdFrame) : List Nat :=
  [CANNELLONI_FRAME_VERSION, OPCODE, seq, 1] ++ u32be f.can_id ++
    [f.len ||| f.flags] ++ f.data.take f.len

/-- One iteration of `transmit_udp_packets` on a present frame: the
bytes sent and the next sequence number `(seq + 1) % 256` (line 185). -/
def transmitUdpStep (seq : Nat) (f : CanfdFrame) : List Nat × Nat :=
  (encodeFrame seq f, (seq + 1) % 256)

/-- `put` every frame of the list in order, `none` as soon as one `put`
fails. -/
def putAll (q : FramesQueue) : List CanfdFrame → Option FramesQueue
  | [] => some q
  | f :: fs =>
    match q.put f with
    | (some _, q') => putAll q' fs
    | (none, _) => none

/-- The `while True: take` loop of `get_received_can_frames` /
`clear_received_can_frames`, with explicit fuel; for a well-formed queue
any fuel of at least `numElems` (in particular `count`) reproduces the
loop, which stops at the first `None`. -/
def drainAux : Nat → FramesQueue → List CanfdFrame × FramesQueue
  | 0, q => ([], q)
  | fuel + 1, q =>
    match q.take with
    | (none, q') => ([], q')
    | (some f, q') =>
      let r := drainAux fuel q'
      (f :: r.1, r.2)

/-- `get_received_can_frames`: drain `rx_queue` into a list, then run
`clear_received_can_frames` (a second, vacuous drain), and return the
frames together with the final queue. -/
def get_received_can_frames (q : FramesQueue) : List CanfdFrame × FramesQueue :=
  let r := drainAux q.count q
  (r.1, (drainAux r.2.count r.2).2)

/-- The example datagram documented in the source's trailing comment
block: `020100010000007b0d48656c6c6f2c20576f726c6421`. -/
def exampleDatagram : List Nat :=
  [0x02, 0x01, 0x00, 0x01, 0x00, 0x00, 0x00, 0x7b, 0x0d,
   0x48, 0x65, 0x6c, 0x6c, 0x6f, 0x2c, 0x20, 0x57, 0x6f, 0x72, 0x6c, 0x64, 0x21]

/-- A minimal valid classic frame used to exhibit the round-trip
failure: identifier 1, one payload byte `0xAB`. -/
def c1Frame : CanfdFrame :=
  { can_id := 1, len := 1, flags := 0, data := [0xAB, 0, 0, 0, 0, 0, 0, 0] }

/-- An RTR-flagged frame with one payload byte, used against the
encoder. -/
def rtrFrame : CanfdFrame :=
  { can_id := 0x40000001, len := 1, flags := 0, data := [0xAB, 0, 0, 0, 0, 0, 0, 0] }

end Cannellonipy

namespace Cannellonipy

/-! ## Helper lemmas -/

set_option maxRecDepth 4096 in
lemma land_128_eq (x : Nat) (hx : x < 256) :
    x &&& 128 = if 128 ≤ x then 128 else 0 := by
  have h : ∀ y : Fin 256, y.val &&& 128 = if 128 ≤ y.val then 128 else 0 := by decide
  exact h ⟨x, hx⟩

lemma getD_lt_256 (l : List Nat) (h : ∀ b ∈ l, b < 256) (i : Nat) :
    l.getD i 0 < 256 := by
  rcases Nat.lt_or_ge i l.length with hi | hi
  · rw [List.getD_eq_getElem l 0 hi]
    exact h _ (List.getElem_mem hi)
  · rw [List.getD_eq_default l 0 hi]
    omega

lemma parseFrames_length (data : List Nat) :
    ∀ count pos, (parseFrames data pos count).length =
      min count ((data.length - pos) / 5) := by
  intro count
  induction count with
  | zero => intro pos; simp [parseFrames]
  | succ n ih =>
    intro pos
    rw [parseFrames]
    split
    · rename_i h
      simp only [List.length_nil]
      simp only [CANNELLONI_FRAME_BASE_SIZE] at h
      omega
    · rename_i h
      simp only [List.length_cons, ih]
      simp only [CANNELLONI_FRAME_BASE_SIZE] at h
      omega

/-! ## C1: round-trip -/

/-- C1: the claimed round-trip `decode (encode F seq) = (seq, F)` fails
on the code already for the single-frame batch `[c1Frame]` with
`seq = 0`: the decoder reads the payload from five bytes past its wire
position (the slice `data[pos+5 : pos+5+length]` after `pos` was already
advanced past the sub-header), so the `0xAB` payload byte comes back as
the leftover zero of the frame's fresh buffer. -/
theorem roundtrip_single_frame_fails :
    decodeDatagram (encodeFrame 0 c1Frame) ≠ some (0, [c1Frame]) ∧
    decodeDatagram (encodeFrame 0 c1Frame) =
      some (0, [{ can_id := 1, len := 1, flags := 0, data := List.replicate 7 0 }]) := by
  decide

/-! ## C2: the documented example datagram -/

/-- C2: decoding the example datagram from the source's own comment
block yields one frame with the right identifier, length and flags, but
with payload bytes `2c 20 57 6f 72 6c 64 21` (ASCII `", World!"`) — the
bytes five positions past the true payload start, truncated at the end
of the datagram — instead of the documented thirteen bytes of
`"Hello, World!"`. -/
theorem decode_example_datagram :
    decodeDatagram exampleDatagram =
      some (0, [{ can_id := 0x7b, len := 13, flags := 0,
                  data := [0x2c, 0x20, 0x57, 0x6f, 0x72, 0x6c, 0x64, 0x21] }]) := by
  decide

/-! ## C3: truncation resilience -/

/-- C3 counterexample: the 9-byte datagram below carries one sub-header
declaring a 5-byte payload, but ends right after the sub-header; the
claim says such a frame is not delivered, yet the decoder delivers it
(with a payload silently truncated by Python slicing). -/
theorem overlong_payload_frame_still_delivered :
    decodeDatagram [2, 1, 0, 1, 0, 0, 0, 1, 5] =
      some (0, [{ can_id := 1, len := 5, flags := 0, data := [0, 0, 0] }]) ∧
    List.length [2, 1, 0, 1, 0, 0, 0, 1, 5] < 4 + 5 + 5 := by
  decide

/-- C3 (amended): decoding is a total function, and it delivers exactly
the frames whose 5-byte sub-header lies within the buffer — that is,
`min count ⌊(|data| - 4) / 5⌋` frames, stopping at the first sub-header
that extends past the buffer end; declared payload lengths are not
bounds-checked, the payload slice is read leniently. -/
theorem decode_delivers_subheader_bounded_frames (data : List Nat)
    (seq : Nat) (frames : List CanfdFrame)
    (h : decodeDatagram data = some (seq, frames)) :
    frames.length = min (data.getD 3 0) ((data.length - 4) / 5) := by
  unfold decodeDatagram at h
  split at h
  · exact absurd h (by simp)
  · split at h
    · exact absurd h (by simp)
    · have hf : frames = parseFrames data CANNELLONI_DATA_PACKET_BASE_SIZE (data.getD 3 0) := by
        have := h
        simp only [Option.some.injEq, Prod.mk.injEq] at this
        exact this.2.symm
      rw [hf, parseFrames_length]
      rfl

/-- Witness for C3 at the example datagram: one frame delivered,
`min 1 ⌊18 / 5⌋ = 1`. -/
theorem decode_delivers_subheader_bounded_frames_witness :
    (∃ p, decodeDatagram exampleDatagram = some p) ∧
    ∀ seq frames, decodeDatagram exampleDatagram = some (seq, frames) →
      frames.length = min (exampleDatagram.getD 3 0) ((exampleDatagram.length - 4) / 5) :=
  ⟨⟨(0, [{ can_id := 0x7b, len := 13, flags := 0,
           data := [0x2c, 0x20, 0x57, 0x6f, 0x72, 0x6c, 0x64, 0x21] }]), by decide⟩,
   fun seq frames h => decode_delivers_subheader_bounded_frames exampleDatagram seq frames h⟩

/-! ## C4: RTR frames on decode -/

/-- C4 counterexample: a datagram whose single frame has the RTR bit set
and length byte 5 decodes to a frame whose `len` field is 5, not 0 — the
decoder skips copying payload bytes for RTR frames but keeps the decoded
length value. -/
theorem rtr_frame_decodes_nonzero_len :
    decodeDatagram [2, 1, 0, 1, 0x40, 0, 0, 0, 5] =
      some (0, [{ can_id := 0x40000000, len := 5, flags := 0,
                  data := List.replicate 8 0 }]) ∧
    0x40000000 &&& CAN_RTR_FLAG ≠ 0 := by
  decide

/-- C4 (amended): for every decoded frame whose identifier has the RTR
bit set, no payload bytes are copied — its data buffer is the untouched
zero-filled 8-byte buffer of a fresh frame — while its `len` field keeps
the value decoded from the length byte. -/
theorem rtr_frame_payload_untouched (data : List Nat) :
    ∀ count pos f, f ∈ parseFrames data pos count →
      f.can_id &&& CAN_RTR_FLAG ≠ 0 → f.data = List.replicate 8 0 := by
  intro count
  induction count with
  | zero => intro pos f hf; simp [parseFrames] at hf
  | succ n ih =>
    intro pos f hf hrtr
    rw [parseFrames] at hf
    split at hf
    · simp at hf
    · simp only [List.mem_cons] at hf
      rcases hf with hf | hf
      · subst hf
        simp only at hrtr ⊢
        rw [if_neg hrtr]
      · exact ih _ f hf hrtr

/-- Witness for C4 at a concrete RTR datagram. -/
theorem rtr_frame_payload_untouched_witness :
    ({ can_id := 0x40000000, len := 5, flags := 0,
       data := List.replicate 8 0 } : CanfdFrame) ∈
        parseFrames [2, 1, 0, 1, 0x40, 0, 0, 0, 5] 4 1 ∧
    (0x40000000 : Nat) &&& CAN_RTR_FLAG ≠ 0 ∧
    ({ can_id := 0x40000000, len := 5, flags := 0,
       data := List.replicate 8 0 } : CanfdFrame).data = List.replicate 8 0 :=
  ⟨by decide, by decide,
   rtr_frame_payload_untouched [2, 1, 0, 1, 0x40, 0, 0, 0, 5] 1 4 _ (by decide) (by decide)⟩

/-! ## C6: sequence number wrap -/

lemma iterate_succ_mod (k : Nat) :
    ∀ s : Nat, s < 256 →
      Nat.iterate (fun s => (s + 1) % 256) k s = (s + k) % 256 := by
  induction k with
  | zero => intro s hs; simp [Nat.mod_eq_of_lt hs]
  | succ n ih =>
    intro s hs
    rw [Function.iterate_succ_apply]
    rw [ih ((s + 1) % 256) (Nat.mod_lt _ (by omega))]
    rw [Nat.mod_add_mod]
    congr 1
    omega

/-- C6: a transmit iteration places the session's current sequence
number in the third header byte, and the sequence update
`(seq + 1) % 256` returns to its starting value after exactly 256
iterations. -/
theorem sequence_number_wrap (seq : Nat) (f : CanfdFrame) (h : seq < 256) :
    (transmitUdpStep seq f).1.getD 2 0 = seq ∧
    Nat.iterate (fun s => (transmitUdpStep s f).2) 256 seq = seq := by
  constructor
  · rfl
  · have he : (fun s => (transmitUdpStep s f).2) = fun s => (s + 1) % 256 := rfl
    rw [he, iterate_succ_mod 256 seq h, Nat.add_mod_right, Nat.mod_eq_of_lt h]

/-- Witness for C6 at `seq = 7`. -/
theorem sequence_number_wrap_witness :
    (transmitUdpStep 7 CanfdFrame.init).1.getD 2 0 = 7 ∧
    Nat.iterate (fun s => (transmitUdpStep s CanfdFrame.init).2) 256 7 = 7 :=
  sequence_number_wrap 7 CanfdFrame.init (by decide)

/-! ## C7: RTR frames on encode -/

/-- C7 counterexample: encoding `rtrFrame` (RTR bit set, `len = 1`,
payload byte `0xAB`) emits ten bytes ending in the payload byte — the
claim says the emitted bytes are the header and 5-byte sub-header only
(nine bytes, payload omitted). -/
theorem encode_rtr_includes_payload :
    rtrFrame.can_id &&& CAN_RTR_FLAG ≠ 0 ∧
    encodeFrame 0 rtrFrame = [2, 1, 0, 1, 0x40, 0, 0, 1, 1, 0xAB] ∧
    (encodeFrame 0 rtrFrame).length ≠ 9 := by
  decide

/-- C7 (amended): the encoder never tests the RTR bit: for every frame,
RTR or not, the bytes after the nine header/sub-header bytes are exactly
`frame.data[:frame.len]`. -/
theorem encode_always_appends_payload (seq : Nat) (f : CanfdFrame) :
    (encodeFrame seq f).drop 9 = f.data.take f.len ∧
    (encodeFrame seq f).length = 9 + min f.len f.data.length := by
  constructor
  · rfl
  · simp [encodeFrame, u32be]
    omega

/-! ## C8: decoded length bound -/

/-- C8 counterexample: a datagram whose single classic (non-FD) frame
carries length byte `0x7f` decodes to a frame with `flags = 0` and
`len = 127 > 8`; the code never clamps the length to 8 (nor to 64 for
FD frames).  The source's own example datagram likewise decodes to a
classic frame with `len = 13 > 8`. -/
theorem nonfd_frame_length_exceeds_8 :
    decodeDatagram [2, 1, 0, 1, 0, 0, 0, 2, 0x7f] =
      some (0, [{ can_id := 2, len := 127, flags := 0, data := [] }]) ∧
    ¬ (127 ≤ 8) := by
  decide

/-- C8 (amended): for a datagram of genuine bytes (all below 256), every
decoded frame's `len` is at most 127 — the low seven bits of the length
byte — and its `flags` field is 0 or 128; no tighter, FD-dependent bound
(8 or 64) is enforced. -/
theorem decoded_len_le_127 (data : List Nat) (hb : ∀ b ∈ data, b < 256) :
    ∀ count pos f, f ∈ parseFrames data pos count →
      f.len ≤ 127 ∧ (f.flags = 0 ∨ f.flags = 128) := by
  intro count
  induction count with
  | zero => intro pos f hf; simp [parseFrames] at hf
  | succ n ih =>
    intro pos f hf
    rw [parseFrames] at hf
    split at hf
    · simp at hf
    · simp only [List.mem_cons] at hf
      rcases hf with hf | hf
      · subst hf
        simp only
        have hbyte : data.getD (pos + 4) 0 < 256 := getD_lt_256 data hb (pos + 4)
        rw [show CANFD_FRAME = 128 from rfl, land_128_eq _ hbyte]
        split <;> omega
      · exact ih _ f hf

/-- Witness for C8 at the example datagram. -/
theorem decoded_len_le_127_witness :
    (∀ b ∈ exampleDatagram, b < 256) ∧
    ({ can_id := 0x7b, len := 13, flags := 0,
       data := [0x2c, 0x20, 0x57, 0x6f, 0x72, 0x6c, 0x64, 0x21] } : CanfdFrame) ∈
      parseFrames exampleDatagram 4 1 ∧
    (({ can_id := 0x7b, len := 13, flags := 0,
        data := [0x2c, 0x20, 0x57, 0x6f, 0x72, 0x6c, 0x64, 0x21] } : CanfdFrame).len ≤ 127 ∧
     (({ can_id := 0x7b, len := 13, flags := 0,
         data := [0x2c, 0x20, 0x57, 0x6f, 0x72, 0x6c, 0x64, 0x21] } : CanfdFrame).flags = 0 ∨
      ({ can_id := 0x7b, len := 13, flags := 0,
         data := [0x2c, 0x20, 0x57, 0x6f, 0x72, 0x6c, 0x64, 0x21] } : CanfdFrame).flags = 128)) :=
  ⟨by decide, by decide,
   decoded_len_le_127 exampleDatagram (by decide) 1 4
     { can_id := 0x7b, len := 13, flags := 0,
       data := [0x2c, 0x20, 0x57, 0x6f, 0x72, 0x6c, 0x64, 0x21] } (by decide)⟩

/-! ## C9: header errors leave the handle unchanged -/

/-- C9: when the datagram is shorter than four bytes, or its version
byte is not 2, or its opcode byte is not 1, `handle_cannelloni_frame`
returns with the handle exactly as before: same `rx_queue` (head, tail
and stored frames) and same `udp_rx_count`. -/
theorem bad_header_leaves_handle_unchanged (h : Handle) (data : List Nat)
    (hbad : data.length < 4 ∨ data.getD 0 0 ≠ 2 ∨ data.getD 1 0 ≠ 1) :
    handle_cannelloni_frame h data = h := by
  unfold handle_cannelloni_frame
  split
  · rfl
  · split
    · rfl
    · rename_i h1 h2
      simp only [CANNELLONI_DATA_PACKET_BASE_SIZE] at h1
      simp only [CANNELLONI_FRAME_VERSION, OPCODE, not_or, not_not] at h2
      rcases hbad with hb | hb | hb
      · omega
      · exact absurd h2.1 hb
      · exact absurd h2.2 hb

/-- Witness for C9: a three-byte datagram against a fresh handle. -/
theorem bad_header_leaves_handle_unchanged_witness :
    ((List.length [9, 9, 9] < 4 ∨ ([9, 9, 9] : List Nat).getD 0 0 ≠ 2 ∨
       ([9, 9, 9] : List Nat).getD 1 0 ≠ 1)) ∧
    handle_cannelloni_frame ⟨FramesQueue.mk0 4, 0⟩ [9, 9, 9] = ⟨FramesQueue.mk0 4, 0⟩ :=
  ⟨by decide,
   bad_header_leaves_handle_unchanged ⟨FramesQueue.mk0 4, 0⟩ [9, 9, 9] (by decide)⟩

/-! ## Ring-queue lemmas -/

lemma succ_mod_cases (t c : Nat) (h : t < c) :
    ((t + 1) % c = t + 1 ∧ t + 1 < c) ∨ ((t + 1) % c = 0 ∧ t + 1 = c) := by
  rcases Nat.lt_or_ge (t + 1) c with h1 | h1
  · exact Or.inl ⟨Nat.mod_eq_of_lt h1, h1⟩
  · have he : t + 1 = c := by omega
    exact Or.inr ⟨by rw [he, Nat.mod_self], he⟩

lemma mod_two_cases (x c : Nat) (h : x < 2 * c) :
    x % c = if x < c then x else x - c := by
  split
  · exact Nat.mod_eq_of_lt (by assumption)
  · rename_i h1
    have h2 : c ≤ x := by omega
    rw [Nat.mod_eq_sub_mod h2, Nat.mod_eq_of_lt (by omega)]

lemma numElems_lt (q : FramesQueue) (hwf : q.wf) : q.numElems < q.count := by
  obtain ⟨hh, ht, _⟩ := hwf
  unfold FramesQueue.numElems
  split <;> omega

lemma numElems_full (q : FramesQueue) (hwf : q.wf)
    (hfull : (q.tail + 1) % q.count = q.head) : q.numElems = q.count - 1 := by
  obtain ⟨hh, ht, _⟩ := hwf
  unfold FramesQueue.numElems
  rcases succ_mod_cases q.tail q.count ht with ⟨he, hlt⟩ | ⟨he, heq⟩ <;>
    rw [he] at hfull <;> split <;> omega

lemma put_not_full (q : FramesQueue) (f : CanfdFrame)
    (hnf : (q.tail + 1) % q.count ≠ q.head) :
    q.put f = (some f, { q with frames := q.frames.set q.tail f,
                                tail := (q.tail + 1) % q.count }) := by
  simp [FramesQueue.put, hnf]

lemma numElems_advance_tail (q : FramesQueue) (fr : List CanfdFrame) (hwf : q.wf)
    (hnf : (q.tail + 1) % q.count ≠ q.head) :
    ({ q with frames := fr, tail := (q.tail + 1) % q.count } : FramesQueue).numElems
      = q.numElems + 1 := by
  obtain ⟨hh, ht, _⟩ := hwf
  unfold FramesQueue.numElems
  simp only
  rcases succ_mod_cases q.tail q.count ht with ⟨he, hlt⟩ | ⟨he, heq⟩ <;>
    rw [he] at hnf ⊢ <;> split <;> split <;> omega

lemma numElems_advance_head (q : FramesQueue) (hwf : q.wf) (hne : q.head ≠ q.tail) :
    ({ q with head := (q.head + 1) % q.count } : FramesQueue).numElems + 1
      = q.numElems := by
  obtain ⟨hh, ht, _⟩ := hwf
  unfold FramesQueue.numElems
  simp only
  rcases succ_mod_cases q.head q.count hh with ⟨he, hlt⟩ | ⟨he, heq⟩ <;>
    rw [he] <;> split <;> split <;> omega

lemma putAll_from (fs : List CanfdFrame) :
    ∀ q : FramesQueue, q.wf → q.numElems + fs.length + 1 ≤ q.count →
      ∃ q', putAll q fs = some q' ∧ q'.wf ∧ q'.head = q.head ∧
        q'.count = q.count ∧ q'.numElems = q.numElems + fs.length := by
  induction fs with
  | nil =>
    intro q hwf hle
    exact ⟨q, rfl, hwf, rfl, rfl, by simp⟩
  | cons f fs ih =>
    intro q hwf hle
    obtain ⟨hh, ht, hl⟩ := hwf
    have hc : 0 < q.count := by omega
    simp only [List.length_cons] at hle
    have hnf : (q.tail + 1) % q.count ≠ q.head := by
      intro hfull
      have := numElems_full q ⟨hh, ht, hl⟩ hfull
      omega
    have hwf₁ : ({ q with frames := q.frames.set q.tail f,
                          tail := (q.tail + 1) % q.count } : FramesQueue).wf := by
      refine ⟨hh, Nat.mod_lt _ hc, ?_⟩
      simp [List.length_set, hl]
    have hnum₁ := numElems_advance_tail q (q.frames.set q.tail f) ⟨hh, ht, hl⟩ hnf
    obtain ⟨q', hput, hwf', hh', hc', hn'⟩ :=
      ih { q with frames := q.frames.set q.tail f, tail := (q.tail + 1) % q.count }
        hwf₁ (by
          rw [hnum₁]
          show q.numElems + 1 + fs.length + 1 ≤ q.count
          omega)
    refine ⟨q', ?_, hwf', hh', hc', ?_⟩
    · rw [putAll, put_not_full q f hnf]
      exact hput
    · rw [hn', hnum₁]
      simp only [List.length_cons]
      omega

/-! ## C5: queue capacity -/

/-- C5: from the empty state of a capacity-`N` queue, `N − 1`
consecutive `put` calls all succeed (`putAll` returns `some`), the `N`th
`put` fails, returning `none` and the very same state (neither the
stored frames nor the head and tail indices change); and after any
successful `take` on a full queue (`(tail + 1) % count = head`), one
more `put` succeeds. -/
theorem queue_capacity (N : Nat) (hN : 0 < N) (fs : List CanfdFrame)
    (hlen : fs.length = N - 1) (g : CanfdFrame)
    (q : FramesQueue) (hwf : q.wf) (hfull : (q.tail + 1) % q.count = q.head)
    (f : CanfdFrame) (q₂ : FramesQueue) (htake : q.take = (some f, q₂))
    (g' : CanfdFrame) :
    (∃ q', putAll (FramesQueue.mk0 N) fs = some q' ∧ q'.put g = (none, q')) ∧
    (q₂.put g').1 = some g' := by
  constructor
  · have hwf0 : (FramesQueue.mk0 N).wf := ⟨hN, hN, by simp [FramesQueue.mk0]⟩
    have h0 : (FramesQueue.mk0 N).numElems = 0 := by
      simp [FramesQueue.numElems, FramesQueue.mk0]
    obtain ⟨q', hput, hwf', hh', hc', hn'⟩ :=
      putAll_from fs (FramesQueue.mk0 N) hwf0 (by
        rw [h0, hlen]
        show 0 + (N - 1) + 1 ≤ N
        omega)
    have hhead : q'.head = 0 := by rw [hh']; rfl
    have hcount : q'.count = N := by rw [hc']; rfl
    rw [h0, hlen] at hn'
    obtain ⟨_, ht', _⟩ := hwf'
    have htail : q'.tail = N - 1 := by
      unfold FramesQueue.numElems at hn'
      rw [hhead, if_pos (Nat.zero_le _)] at hn'
      omega
    refine ⟨q', hput, ?_⟩
    have hfc : (q'.tail + 1) % q'.count = q'.head := by
      rw [htail, hcount, hhead, Nat.sub_add_cancel hN, Nat.mod_self]
    simp [FramesQueue.put, hfc]
  · unfold FramesQueue.take at htake
    split at htake
    · simp at htake
    · rename_i hne
      obtain ⟨hh, ht, hl⟩ := hwf
      simp only [Prod.mk.injEq] at htake
      have hq₂ : q₂ = { q with head := (q.head + 1) % q.count } := htake.2.symm
      have hcond : (q.tail + 1) % q.count ≠ (q.head + 1) % q.count := by
        rw [hfull]
        intro heq
        rcases succ_mod_cases q.head q.count hh with ⟨he, hlt⟩ | ⟨he, heq'⟩ <;>
          rw [he] at heq <;> omega
      rw [hq₂]
      simp [FramesQueue.put, hcond]

/-- Witness for C5: capacity 3, two successful puts then a failing one;
a full queue `⟨0, 2, 3, _⟩` whose `take` enables one more `put`. -/
theorem queue_capacity_witness :
    (∃ q', putAll (FramesQueue.mk0 3) [CanfdFrame.init, CanfdFrame.init] = some q' ∧
       q'.put CanfdFrame.init = (none, q')) ∧
    ((⟨1, 2, 3, List.replicate 3 CanfdFrame.init⟩ : FramesQueue).put CanfdFrame.init).1 =
      some CanfdFrame.init :=
  queue_capacity 3 (by decide) [CanfdFrame.init, CanfdFrame.init] (by decide)
    CanfdFrame.init ⟨0, 2, 3, List.replicate 3 CanfdFrame.init⟩ (by decide) (by decide)
    CanfdFrame.init ⟨1, 2, 3, List.replicate 3 CanfdFrame.init⟩ (by decide) CanfdFrame.init

/-! ## C10: draining returns everything in FIFO order -/

lemma getD_set_ne : ∀ (l : List CanfdFrame) (i j : Nat) (a : CanfdFrame), i ≠ j →
    (l.set i a).getD j default = l.getD j default
  | [], _, _, _, _ => by simp
  | x :: xs, 0, 0, a, h => absurd rfl h
  | _ :: _, 0, _ + 1, _, _ => by simp [List.set]
  | _ :: _, _ + 1, 0, _, _ => by simp [List.set]
  | x :: xs, i + 1, j + 1, a, h => by
    simp only [List.set, List.getD_cons_succ]
    exact getD_set_ne xs i j a (by omega)

lemma getD_set_eq (l : List CanfdFrame) (i : Nat) (a : CanfdFrame) (h : i < l.length) :
    (l.set i a).getD i default = a := by
  induction l generalizing i with
  | nil => simp at h
  | cons x xs ih =>
    cases i with
    | zero => simp [List.set]
    | succ n =>
      simp only [List.set, List.getD_cons_succ]
      exact ih n (by simpa using h)

lemma slot_ne_tail (q : FramesQueue) (hwf : q.wf) (i : Nat) (hi : i < q.numElems) :
    (q.head + i) % q.count ≠ q.tail := by
  obtain ⟨hh, ht, _⟩ := hwf
  have hnum : q.numElems < q.count := numElems_lt q ⟨hh, ht, by assumption⟩
  have h2 : q.head + i < 2 * q.count := by omega
  rw [mod_two_cases _ _ h2]
  unfold FramesQueue.numElems at hi
  split at hi <;> split <;> omega

lemma slot_at_numElems (q : FramesQueue) (hwf : q.wf) :
    (q.head + q.numElems) % q.count = q.tail := by
  obtain ⟨hh, ht, _⟩ := hwf
  unfold FramesQueue.numElems
  split
  · rename_i h
    have he : q.head + (q.tail - q.head) = q.tail := by omega
    rw [he, Nat.mod_eq_of_lt ht]
  · rename_i h
    have he : q.head + (q.count + q.tail - q.head) = q.count + q.tail := by omega
    rw [he, Nat.add_mod_left, Nat.mod_eq_of_lt ht]

lemma toList_put (q : FramesQueue) (f : CanfdFrame) (hwf : q.wf)
    (hnf : (q.tail + 1) % q.count ≠ q.head) :
    ((q.put f).2).toList = q.toList ++ [f] := by
  obtain ⟨hh, ht, hl⟩ := hwf
  rw [put_not_full q f hnf]
  unfold FramesQueue.toList
  simp only
  rw [numElems_advance_tail q (q.frames.set q.tail f) ⟨hh, ht, hl⟩ hnf]
  rw [List.range_succ, List.map_append]
  congr 1
  · apply List.map_congr_left
    intro i hi
    rw [List.mem_range] at hi
    exact getD_set_ne q.frames q.tail ((q.head + i) % q.count) f
      (fun he => slot_ne_tail q ⟨hh, ht, hl⟩ i hi he.symm)
  · simp only [List.map_cons, List.map_nil]
    rw [slot_at_numElems q ⟨hh, ht, hl⟩]
    rw [getD_set_eq q.frames q.tail f (by omega)]

lemma take_not_empty (q : FramesQueue) (hne : ¬ q.head = q.tail) :
    q.take = (some (q.frames.getD q.head default),
              { q with head := (q.head + 1) % q.count }) := by
  simp [FramesQueue.take, hne]

lemma toList_take (q : FramesQueue) (hwf : q.wf) (hne : ¬ q.head = q.tail) :
    q.toList = q.frames.getD q.head default ::
      ({ q with head := (q.head + 1) % q.count } : FramesQueue).toList := by
  obtain ⟨hh, ht, hl⟩ := hwf
  unfold FramesQueue.toList
  simp only
  rw [← numElems_advance_head q ⟨hh, ht, hl⟩ hne]
  rw [List.range_succ_eq_map]
  simp only [List.map_cons, List.map_map]
  congr 1
  · rw [Nat.add_zero, Nat.mod_eq_of_lt hh]
  · apply List.map_congr_left
    intro i hi
    simp only [Function.comp_apply]
    rw [Nat.mod_add_mod]
    congr 2
    omega

lemma drainAux_empty (fuel : Nat) (q : FramesQueue) (h : q.head = q.tail) :
    drainAux fuel q = ([], q) := by
  cases fuel with
  | zero => rfl
  | succ n =>
    have htk : q.take = (none, q) := by simp [FramesQueue.take, h]
    rw [drainAux, htk]

lemma drainAux_spec : ∀ (fuel : Nat) (q : FramesQueue), q.wf → q.numElems ≤ fuel →
    (drainAux fuel q).1 = q.toList ∧
    (drainAux fuel q).2.head = (drainAux fuel q).2.tail := by
  intro fuel
  induction fuel with
  | zero =>
    intro q hwf hle
    have h0 : q.numElems = 0 := by omega
    have hht : q.head = q.tail := by
      obtain ⟨hh, ht, _⟩ := hwf
      unfold FramesQueue.numElems at h0
      split at h0 <;> omega
    refine ⟨?_, hht⟩
    simp [drainAux, FramesQueue.toList, h0]
  | succ n ih =>
    intro q hwf hle
    by_cases hne : q.head = q.tail
    · have h0 : q.numElems = 0 := by
        unfold FramesQueue.numElems
        rw [hne]
        simp
      have htk : q.take = (none, q) := by simp [FramesQueue.take, hne]
      rw [drainAux, htk]
      refine ⟨?_, hne⟩
      simp [FramesQueue.toList, h0]
    · obtain ⟨hh, ht, hl⟩ := hwf
      have htk := take_not_empty q hne
      rw [drainAux, htk]
      have hwf₁ : ({ q with head := (q.head + 1) % q.count } : FramesQueue).wf :=
        ⟨Nat.mod_lt _ (by omega), ht, hl⟩
      have hnum := numElems_advance_head q ⟨hh, ht, hl⟩ hne
      obtain ⟨ih1, ih2⟩ := ih { q with head := (q.head + 1) % q.count } hwf₁ (by omega)
      refine ⟨?_, ih2⟩
      rw [toList_take q ⟨hh, ht, hl⟩ hne]
      simp only [List.cons.injEq]
      exact ⟨trivial, ih1⟩

/-- A wrap-around queue state used as the C10 witness input: capacity 3,
`head = 2`, `tail = 0`, one stored frame (identifier 5) in slot 2. -/
def qW : FramesQueue :=
  { head := 2, tail := 0, count := 3,
    frames := [CanfdFrame.init, CanfdFrame.init,
               { can_id := 5, len := 0, flags := 0, data := List.replicate 8 0 }] }

/-- C10: on every well-formed queue state — empty, partly filled or
full — `get_received_can_frames` returns exactly the stored frames in
FIFO order (`toList`, the frame at `head` first) and leaves the queue
empty, so an immediately following `take` returns `none`; and every
successful `put` appends to that FIFO list, so the order `toList`
reports is the order in which `put` stored the frames. -/
theorem get_received_drains_fifo (q : FramesQueue) (hwf : q.wf) :
    (get_received_can_frames q).1 = q.toList ∧
    ((get_received_can_frames q).2).take = (none, (get_received_can_frames q).2) ∧
    ∀ f fq, q.put f = (some f, fq) → fq.toList = q.toList ++ [f] := by
  have hnum : q.numElems ≤ q.count := Nat.le_of_lt (numElems_lt q hwf)
  obtain ⟨h1, h2⟩ := drainAux_spec q.count q hwf hnum
  refine ⟨h1, ?_, ?_⟩
  · have hG : (get_received_can_frames q).2 = (drainAux q.count q).2 := by
      show (drainAux (drainAux q.count q).2.count (drainAux q.count q).2).2 = _
      rw [drainAux_empty _ _ h2]
    rw [hG]
    simp [FramesQueue.take, h2]
  · intro f fq hput
    have hnf : (q.tail + 1) % q.count ≠ q.head := by
      intro hfull
      unfold FramesQueue.put at hput
      rw [if_pos hfull] at hput
      simp at hput
    have hq := put_not_full q f hnf
    rw [hq] at hput
    simp only [Prod.mk.injEq, true_and] at hput
    have h := toList_put q f hwf hnf
    rw [hq] at h
    rw [← hput]
    exact h

/-- Witness for C10 at the wrap-around state `qW`. -/
theorem get_received_drains_fifo_witness :
    (get_received_can_frames qW).1 = qW.toList ∧
    ((get_received_can_frames qW).2).take = (none, (get_received_can_frames qW).2) ∧
    ∀ f fq, qW.put f = (some f, fq) → fq.toList = qW.toList ++ [f] :=
  get_received_drains_fifo qW (by decide)

end Cannellonipy
